import Mathlib

/-!
Verification of the prefix-range boundary algorithm and the KVApi delegation
layer of `src/meta/kvapi/src/kv_api.rs`.

Keys and Rust strings are modelled as lists of Unicode code points
(`List Nat`); on the ASCII inputs the algorithm accepts, Rust's byte length
and character count coincide, so the list model is exact.
-/

namespace KvApi

/-- Rust `char::is_ascii`: the code point is at most 127. -/
def isAsciiChar (c : Nat) : Bool :=
  decide (c ≤ 127)

/-- All characters of the string are ASCII. -/
def allAscii (s : List Nat) : Bool :=
  s.all isAsciiChar

/-- The error codes of `common_exception` that this layer can produce.
`UnknownException` stands for the unrelated codes of the enum. -/
inductive ErrorCode where
  | OnlySupportAsciiChars (c : Nat)
  | UnknownException (code : Nat)
  deriving DecidableEq

instance {ε α : Type} [DecidableEq ε] [DecidableEq α] : DecidableEq (Except ε α) :=
  fun x y =>
    match x, y with
    | Except.ok a, Except.ok b =>
      if h : a = b then isTrue (by rw [h])
      else isFalse (fun hh => by cases hh; exact h rfl)
    | Except.ok _, Except.error _ => isFalse (fun hh => by cases hh)
    | Except.error _, Except.ok _ => isFalse (fun hh => by cases hh)
    | Except.error e, Except.error f =>
      if h : e = f then isTrue (by rw [h])
      else isFalse (fun hh => by cases hh; exact h rfl)

/-- Modelled from the spec: `replace_nth_char` (defined in `common_base`, whose
source is not among the given files) replaces the character at index `n` by
`c`, leaving every character to its left and right unchanged and truncating
nothing. -/
def replace_nth_char (s : List Nat) (n : Nat) (c : Nat) : List Nat :=
  s.set n c

/-- The backward scan of `prefix_of_string`: the Rust loop
`let mut l = s.len(); while l > 0 { l -= 1; ... }` inspects the character at
index `l`; a 127 is skipped (carry), any other character is incremented in
place and the scan returns. `none` means the loop ran off the left end. -/
def scanBack (s : List Nat) : Nat → Option (List Nat)
  | 0 => none
  | l + 1 =>
    match s.get? l with
    | some c => if c = 127 then scanBack s l else some (replace_nth_char s l (c + 1))
    | none => scanBack s l

/-- `prefix_of_string` of kv_api.rs: validate that every character is ASCII,
then scan from the right for the first character below 127, increment it; if
none exists (the all-127 or empty prefix) append one 127 character. -/
def prefix_of_string (s : List Nat) : Except ErrorCode (List Nat) :=
  match s.find? (fun c => ! isAsciiChar c) with
  | some c => Except.error (ErrorCode.OnlySupportAsciiChars c)
  | none =>
    match scanBack s s.length with
    | some r => Except.ok r
    | none => Except.ok (s ++ [127])

/-- `get_start_and_end_of_prefix` of kv_api.rs: the pair of the prefix itself
and its exclusive upper bound, any error of `prefix_of_string` propagated. -/
def get_start_and_end_of_prefix (p : List Nat) :
    Except ErrorCode (List Nat × List Nat) :=
  match prefix_of_string p with
  | Except.error e => Except.error e
  | Except.ok e => Except.ok (p, e)

/-- Increment the first non-127 character of a list, skipping over leading
127s; used on the reversed string to state the spec's reference description
of the algorithm ("increment the rightmost non-127 character"). -/
def incFirstNon127 : List Nat → List Nat
  | [] => []
  | c :: rest => if c = 127 then c :: incFirstNon127 rest else (c + 1) :: rest

/-- The spec's reference definition of the prefix bound: if the string holds a
character other than 127, increment the rightmost such character, keeping the
characters to its left and the 127s to its right, truncating nothing;
otherwise (all characters 127, or the empty string) append one 127. -/
def spec_prefix_of_string (s : List Nat) : List Nat :=
  if s.any (fun c => c != 127) then (incFirstNon127 s.reverse).reverse
  else s ++ [127]

/-- Byte-wise lexicographic strict order on keys: a proper prefix is smaller,
otherwise the first differing position decides. -/
def lexLt : List Nat → List Nat → Bool
  | _, [] => false
  | [], _ :: _ => true
  | a :: as, b :: bs => decide (a < b) || (decide (a = b) && lexLt as bs)

/-- Byte-wise lexicographic order, non-strict. -/
def lexLe (x y : List Nat) : Bool :=
  lexLt x y || decide (x = y)

/-- `k` starts with the prefix `p`. -/
def startsWith (p k : List Nat) : Bool :=
  p.isPrefixOf k

/-- The KVApi trait of kv_api.rs: the five operations a conforming key-value
backend must implement, over a receiver type `σ` (Rust's `Self`), an error
type `ε` (the associated `Error`), and the request and reply types of the
operations. Each async method is modelled as a function from receiver and
argument to its awaited outcome: the backend's reply or its error. -/
structure KVApi (σ ε Req Rep GetRep MGetRep ListRep Txn TxnRep : Type) where
  upsert_kv : σ → Req → Except ε Rep
  get_kv : σ → List Nat → Except ε GetRep
  mget_kv : σ → List (List Nat) → Except ε MGetRep
  prefix_list_kv : σ → List Nat → Except ε ListRep
  transaction : σ → Txn → Except ε TxnRep

/-- The blanket `impl<U: KVApi, T: Deref<Target = U>> KVApi for T` of
kv_api.rs: a wrapper type `τ` that transparently dereferences to a conforming
backend (the dereference modelled as the function `d`) is itself conforming,
with the identical error type, each operation forwarded unchanged to the
dereferenced value. -/
def derefKVApi {σ τ ε Req Rep GetRep MGetRep ListRep Txn TxnRep : Type}
    (d : τ → σ) (B : KVApi σ ε Req Rep GetRep MGetRep ListRep Txn TxnRep) :
    KVApi τ ε Req Rep GetRep MGetRep ListRep Txn TxnRep where
  upsert_kv t act := B.upsert_kv (d t) act
  get_kv t key := B.get_kv (d t) key
  mget_kv t keys := B.mget_kv (d t) keys
  prefix_list_kv t p := B.prefix_list_kv (d t) p
  transaction t txn := B.transaction (d t) txn

/-- `AsKVApi::as_kv_api` through the blanket `impl<T: KVApi> AsKVApi for T` of
kv_api.rs: the capability projection returns the backend itself, unchanged. -/
def asKVApi {σ ε Req Rep GetRep MGetRep ListRep Txn TxnRep : Type}
    (B : KVApi σ ε Req Rep GetRep MGetRep ListRep Txn TxnRep) :
    KVApi σ ε Req Rep GetRep MGetRep ListRep Txn TxnRep :=
  B


lemma get?_append_of_lt (t : List Nat) :
    ∀ (s : List Nat) (l : Nat), l < s.length → (s ++ t).get? l = s.get? l
  | [], l, h => absurd h (by simp)
  | _ :: _, 0, _ => rfl
  | _ :: s, l + 1, h => get?_append_of_lt t s l (Nat.lt_of_succ_lt_succ h)

lemma set_append_of_lt (t : List Nat) :
    ∀ (s : List Nat) (l x : Nat), l < s.length → (s ++ t).set l x = s.set l x ++ t
  | [], l, _, h => absurd h (by simp)
  | _ :: _, 0, _, _ => rfl
  | a :: s, l + 1, x, h => by
      simp only [List.cons_append, List.set, List.append_eq]
      rw [set_append_of_lt t s l x (Nat.lt_of_succ_lt_succ h)]

lemma get?_concat_self : ∀ (s : List Nat) (c : Nat), (s ++ [c]).get? s.length = some c
  | [], _ => rfl
  | _ :: s, c => get?_concat_self s c

lemma set_concat_self : ∀ (s : List Nat) (c x : Nat), (s ++ [c]).set s.length x = s ++ [x]
  | [], _, _ => rfl
  | a :: s, c, x => by
      simp only [List.cons_append, List.set, List.length_cons, List.append_eq]
      rw [set_concat_self s c x]

lemma scanBack_append (s : List Nat) (c : Nat) :
    ∀ l, l ≤ s.length → scanBack (s ++ [c]) l = (scanBack s l).map (fun r => r ++ [c])
  | 0, _ => rfl
  | l + 1, h => by
      have hl : l < s.length := h
      simp only [scanBack, get?_append_of_lt [c] s l hl]
      cases hsl : s.get? l with
      | none => exact scanBack_append s c l (Nat.le_of_lt hl)
      | some d =>
        by_cases hd : d = 127
        · simp only [hd, if_pos rfl]
          exact scanBack_append s c l (Nat.le_of_lt hl)
        · simp only [if_neg hd, replace_nth_char, Option.map_some']
          rw [set_append_of_lt [c] s l (d + 1) hl]

lemma scanBack_concat (s : List Nat) (c : Nat) :
    scanBack (s ++ [c]) (s.length + 1) =
      if c = 127 then (scanBack s s.length).map (fun r => r ++ [127])
      else some (s ++ [c + 1]) := by
  simp only [scanBack, get?_concat_self s c]
  by_cases hc : c = 127
  · simp only [hc, if_pos rfl]
    exact scanBack_append s 127 s.length (Nat.le_refl _)
  · simp only [if_neg hc, replace_nth_char]
    rw [set_concat_self s c (c + 1)]

lemma scanBack_eq_spec (s : List Nat) :
    scanBack s s.length =
      if s.any (fun x => x != 127) then some ((incFirstNon127 s.reverse).reverse)
      else none := by
  induction s using List.reverseRecOn with
  | nil => rfl
  | append_singleton s a ih =>
    have hlen : (s ++ [a]).length = s.length + 1 := by simp
    rw [hlen, scanBack_concat s a]
    by_cases ha : a = 127
    · subst ha
      have hany : (s ++ [127]).any (fun x => x != 127) = s.any (fun x => x != 127) := by
        simp
      rw [hany, ih]
      by_cases hs : s.any (fun x => x != 127) = true
      · simp only [hs, if_pos rfl, Option.map_some', if_pos rfl]
        simp [incFirstNon127]
      · simp only [Bool.not_eq_true] at hs
        simp [hs]
    · have hany : (s ++ [a]).any (fun x => x != 127) = true := by
        simp [ha]
      simp only [if_neg ha, hany, if_pos rfl]
      simp [incFirstNon127, ha]

lemma find?_nonAscii_eq_none (s : List Nat) (h : allAscii s = true) :
    s.find? (fun c => ! isAsciiChar c) = none := by
  rw [List.find?_eq_none]
  intro x hx
  simp only [allAscii, List.all_eq_true] at h
  simp [h x hx]

lemma prefix_of_string_spec_of_ascii (s : List Nat) (h : allAscii s = true) :
    prefix_of_string s = Except.ok (spec_prefix_of_string s) := by
  unfold prefix_of_string spec_prefix_of_string
  rw [find?_nonAscii_eq_none s h, scanBack_eq_spec s]
  by_cases hs : s.any (fun x => x != 127) = true
  · simp [hs]
  · simp only [Bool.not_eq_true] at hs
    simp [hs]

lemma spec_concat_127 (s : List Nat) :
    spec_prefix_of_string (s ++ [127]) = spec_prefix_of_string s ++ [127] := by
  unfold spec_prefix_of_string
  have hred : (s ++ [127]).any (fun c => c != 127) = s.any (fun c => c != 127) := by simp
  rw [hred]
  by_cases hs : s.any (fun x => x != 127) = true
  · simp [hs, incFirstNon127]
  · simp only [Bool.not_eq_true] at hs
    simp [hs]

lemma spec_concat_last (u : List Nat) (c : Nat) (hc : c ≠ 127) :
    spec_prefix_of_string (u ++ [c]) = u ++ [c + 1] := by
  unfold spec_prefix_of_string
  have hred : (u ++ [c]).any (fun x => x != 127) = true := by simp [hc]
  rw [hred]
  simp [incFirstNon127, hc]

lemma spec_decomp (s : List Nat) (h : s.any (fun x => x != 127) = true) :
    ∃ u c m, c ≠ 127 ∧ s = u ++ c :: List.replicate m 127 ∧
      spec_prefix_of_string s = u ++ (c + 1) :: List.replicate m 127 := by
  induction s using List.reverseRecOn with
  | nil => simp at h
  | append_singleton s a ih =>
    by_cases ha : a = 127
    · subst ha
      have hs : s.any (fun x => x != 127) = true := by simpa using h
      obtain ⟨u, c, m, hc, hdecomp, hspec⟩ := ih hs
      refine ⟨u, c, m + 1, hc, ?_, ?_⟩
      · rw [hdecomp, List.replicate_succ']
        simp
      · rw [spec_concat_127 s, hspec, List.replicate_succ']
        simp
    · refine ⟨s, a, 0, ha, by simp, ?_⟩
      rw [spec_concat_last s a ha]
      simp

lemma lexLt_nil_right : ∀ x : List Nat, lexLt x [] = false
  | [] => rfl
  | _ :: _ => rfl

lemma lexLt_append_cons (u : List Nat) (a b : Nat) (x y : List Nat) (h : a < b) :
    lexLt (u ++ a :: x) (u ++ b :: y) = true := by
  induction u with
  | nil => simp [lexLt, h]
  | cons d u ih => simp [lexLt, ih]

lemma lexLe_self_append (p t : List Nat) : lexLe p (p ++ t) = true := by
  induction p with
  | nil => cases t <;> simp [lexLe, lexLt]
  | cons a p ih =>
    simp only [lexLe, lexLt, List.cons_append, Bool.or_eq_true, Bool.and_eq_true,
      decide_eq_true_eq, List.cons.injEq, lt_self_iff_false, false_or, true_and] at ih ⊢
    exact ih

lemma lexLt_self_append (p t : List Nat) (h : t ≠ []) : lexLt p (p ++ t) = true := by
  induction p with
  | nil =>
    cases t with
    | nil => exact absurd rfl h
    | cons a t => simp [lexLt]
  | cons a p ih => simp [lexLt, ih]

lemma lexLt_irrefl : ∀ x : List Nat, lexLt x x = false
  | [] => rfl
  | a :: x => by simp [lexLt, lexLt_irrefl x]

lemma lexLt_asymm : ∀ x y : List Nat, lexLt x y = true → lexLt y x = false
  | x, [], h => by rw [lexLt_nil_right x] at h; exact absurd h (by simp)
  | [], _ :: _, _ => rfl
  | a :: x, b :: y, h => by
    simp only [lexLt, Bool.or_eq_true, Bool.and_eq_true, decide_eq_true_eq] at h ⊢
    simp only [Bool.or_eq_false_iff, Bool.and_eq_false_iff, decide_eq_false_iff_not]
    rcases h with hab | ⟨hab, hxy⟩
    · exact ⟨Nat.lt_asymm hab, Or.inl (fun hba => Nat.lt_irrefl a (hba ▸ hab))⟩
    · subst hab
      exact ⟨Nat.lt_irrefl a, Or.inr (lexLt_asymm x y hxy)⟩

lemma lexLt_of_not_lexLe : ∀ x y : List Nat, lexLe x y = false → lexLt y x = true
  | [], [], h => by simp [lexLe, lexLt] at h
  | [], _ :: _, h => by simp [lexLe, lexLt] at h
  | _ :: _, [], _ => rfl
  | a :: x, b :: y, h => by
    simp only [lexLe, lexLt, Bool.or_eq_false_iff, Bool.and_eq_false_iff,
      decide_eq_false_iff_not, List.cons.injEq, not_and] at h
    obtain ⟨⟨hab, hor⟩, heq⟩ := h
    simp only [lexLt, Bool.or_eq_true, Bool.and_eq_true, decide_eq_true_eq]
    rcases Nat.lt_trichotomy a b with hlt | hE | hgt
    · exact absurd hlt hab
    · subst hE
      refine Or.inr ⟨rfl, ?_⟩
      rcases hor with hne | hxy
      · exact absurd rfl hne
      · refine lexLt_of_not_lexLe x y ?_
        simp only [lexLe, Bool.or_eq_false_iff, decide_eq_false_iff_not]
        exact ⟨hxy, fun hE2 => heq rfl hE2⟩
    · exact Or.inl hgt

lemma startsWith_append (p t : List Nat) : startsWith p (p ++ t) = true := by
  induction p with
  | nil => simp [startsWith, List.isPrefixOf]
  | cons a p ih => simp [startsWith, List.isPrefixOf]

lemma startsWith_refl (p : List Nat) : startsWith p p = true := by
  simpa using startsWith_append p []

lemma startsWith_iff (p k : List Nat) : startsWith p k = true ↔ ∃ t, k = p ++ t := by
  constructor
  · intro h
    induction p generalizing k with
    | nil => exact ⟨k, rfl⟩
    | cons a p ih =>
      cases k with
      | nil => simp [startsWith, List.isPrefixOf] at h
      | cons b k =>
        simp only [startsWith, List.isPrefixOf, Bool.and_eq_true, beq_iff_eq] at h
        obtain ⟨hab, hpk⟩ := h
        obtain ⟨t, ht⟩ := ih k hpk
        exact ⟨t, by rw [hab, ht]; rfl⟩
  · rintro ⟨t, rfl⟩
    exact startsWith_append p t

lemma startsWith_cons (a : Nat) (p k : List Nat) :
    startsWith (a :: p) (a :: k) = startsWith p k := by
  simp [startsWith, List.isPrefixOf]

lemma lexLt_cons_iff (a b : Nat) (x y : List Nat) :
    lexLt (a :: x) (b :: y) = true ↔ a < b ∨ (a = b ∧ lexLt x y = true) := by
  simp [lexLt]

lemma lexLe_cons_iff (a b : Nat) (x y : List Nat) :
    lexLe (a :: x) (b :: y) = true ↔ a < b ∨ (a = b ∧ lexLe x y = true) := by
  simp only [lexLe, lexLt, Bool.or_eq_true, Bool.and_eq_true, decide_eq_true_eq,
    List.cons.injEq]
  tauto

lemma lexLe_nil_right : ∀ x : List Nat, lexLe x [] = true ↔ x = []
  | [] => by simp [lexLe]
  | a :: x => by simp [lexLe, lexLt_nil_right]

lemma all127_range : ∀ (n : Nat) (k : List Nat), allAscii k = true →
    lexLe (List.replicate n 127) k = true →
    lexLt k (List.replicate (n + 1) 127) = true →
    startsWith (List.replicate n 127) k = true
  | 0, k, _, _, _ => by simp [startsWith, List.isPrefixOf]
  | n + 1, [], _, h1, _ => by
      rw [List.replicate_succ, lexLe_nil_right] at h1
      exact absurd h1 (by simp)
  | n + 1, a :: k, hk, h1, h2 => by
      have ha : a ≤ 127 := by
        simp only [allAscii, List.all_eq_true, isAsciiChar, decide_eq_true_eq] at hk
        exact hk a (List.mem_cons_self a k)
      have hk' : allAscii k = true := by
        simp only [allAscii, List.all_eq_true] at hk ⊢
        exact fun x hx => hk x (List.mem_cons_of_mem a hx)
      rw [List.replicate_succ] at h1
      rw [List.replicate_succ 127 (n + 1)] at h2
      rcases (lexLe_cons_iff 127 a _ _).mp h1 with hlt | ⟨hE, h1'⟩
      · exact absurd hlt (Nat.not_lt.mpr ha)
      · subst hE
        rcases (lexLt_cons_iff 127 127 _ _).mp h2 with hlt | ⟨_, h2'⟩
        · exact absurd hlt (Nat.lt_irrefl 127)
        · rw [List.replicate_succ, startsWith_cons]
          exact all127_range n k hk' h1' h2'

lemma last_inc_range : ∀ (u : List Nat) (c : Nat) (k : List Nat),
    lexLe (u ++ [c]) k = true → lexLt k (u ++ [c + 1]) = true →
    startsWith (u ++ [c]) k = true
  | u, c, [], h1, _ => by
      rw [lexLe_nil_right] at h1
      exact absurd h1 (by simp)
  | [], c, a :: k, h1, h2 => by
      simp only [List.nil_append] at h1 h2 ⊢
      have hac : a ≤ c := by
        rcases (lexLt_cons_iff a (c + 1) k []).mp h2 with hlt | ⟨_, hbad⟩
        · exact Nat.lt_succ_iff.mp hlt
        · rw [lexLt_nil_right] at hbad
          exact absurd hbad (by simp)
      rcases (lexLe_cons_iff c a [] k).mp h1 with hlt | ⟨hE, _⟩
      · exact absurd hlt (Nat.not_lt.mpr hac)
      · subst hE
        simp [startsWith, List.isPrefixOf]
  | d :: u, c, a :: k, h1, h2 => by
      simp only [List.cons_append] at h1 h2 ⊢
      rcases (lexLt_cons_iff a d _ _).mp h2 with hlt2 | ⟨hE2, h2'⟩
      · rcases (lexLe_cons_iff d a _ _).mp h1 with hlt1 | ⟨hE1, _⟩
        · exact absurd hlt2 (Nat.lt_asymm hlt1)
        · exact absurd hlt2 (hE1 ▸ Nat.lt_irrefl a)
      · subst hE2
        rcases (lexLe_cons_iff a a _ _).mp h1 with hlt1 | ⟨_, h1'⟩
        · exact absurd hlt1 (Nat.lt_irrefl a)
        · rw [startsWith_cons]
          exact last_inc_range u c k h1' h2'

lemma ok_of_allAscii (s : List Nat) (h : allAscii s = true) :
    ∃ r, prefix_of_string s = Except.ok r :=
  ⟨spec_prefix_of_string s, prefix_of_string_spec_of_ascii s h⟩

lemma prefix_ok_cases (p e : List Nat) (hp : allAscii p = true)
    (he : prefix_of_string p = Except.ok e) :
    (∃ u c m, c ≠ 127 ∧ p = u ++ c :: List.replicate m 127 ∧
        e = u ++ (c + 1) :: List.replicate m 127) ∨
      ((∀ x ∈ p, x = 127) ∧ e = p ++ [127]) := by
  rw [prefix_of_string_spec_of_ascii p hp] at he
  injection he with hE
  by_cases hany : p.any (fun x => x != 127) = true
  · left
    obtain ⟨u, c, m, hc, hdec, hsp⟩ := spec_decomp p hany
    exact ⟨u, c, m, hc, hdec, by rw [← hE, hsp]⟩
  · right
    have hall : ∀ x ∈ p, x = 127 := by
      intro x hx
      by_contra hne
      exact hany (List.any_eq_true.mpr ⟨x, hx, bne_iff_ne.mpr hne⟩)
    refine ⟨hall, ?_⟩
    rw [← hE]
    unfold spec_prefix_of_string
    rw [if_neg hany]

lemma allAscii_append_iff (u v : List Nat) :
    allAscii (u ++ v) = true ↔ allAscii u = true ∧ allAscii v = true := by
  simp [allAscii, List.all_eq_true]

/-- C1 (amended): for an ASCII prefix `p` holding at least one character other
than 127, every ASCII key `k` that starts with `p` satisfies
`p ≤ k < prefix_of_string p` in byte-wise lexicographic order; equivalently no
key outside that half-open range starts with `p`. -/
theorem prefix_range_covers_keys (p k e : List Nat)
    (hp : allAscii p = true) (hk : allAscii k = true)
    (hne : p.any (fun x => x != 127) = true)
    (he : prefix_of_string p = Except.ok e)
    (hs : startsWith p k = true) :
    lexLe p k = true ∧ lexLt k e = true := by
  obtain ⟨t, rfl⟩ := (startsWith_iff p k).mp hs
  refine ⟨lexLe_self_append p t, ?_⟩
  rcases prefix_ok_cases p e hp he with ⟨u, c, m, hc, rfl, rfl⟩ | ⟨hall, rfl⟩
  · simp only [List.append_assoc, List.cons_append]
    exact lexLt_append_cons u c (c + 1) _ _ (Nat.lt_succ_self c)
  · exfalso
    rw [List.any_eq_true] at hne
    obtain ⟨x, hx, hxne⟩ := hne
    exact bne_iff_ne.mp hxne (hall x hx)

/-- Witness for C1 at the prefix `[96, 97, 127]` and the key `[96, 97, 127, 5]`. -/
theorem prefix_range_covers_keys_witness :
    lexLe [96, 97, 127] [96, 97, 127, 5] = true ∧
      lexLt [96, 97, 127, 5] [96, 98, 127] = true :=
  prefix_range_covers_keys [96, 97, 127] [96, 97, 127, 5] [96, 98, 127]
    (by decide) (by decide) (by decide) (by decide) (by decide)

/-- C1 counterexample: for the all-127 prefix `[127]` the key `[127, 127]`
starts with the prefix yet is not below `prefix_of_string [127] = [127, 127]`,
so the claimed range misses it. -/
theorem prefix_range_all127_counterexample :
    startsWith [127] [127, 127] = true ∧
      prefix_of_string [127] = Except.ok [127, 127] ∧
      lexLt [127, 127] [127, 127] = false := by decide

/-- C2 (amended): provided the rightmost non-127 character of `p` (when one
exists) is its last character — `p` ends in a character below 127, or consists
entirely of 127s (the empty prefix included) — every ASCII key `k` with
`p ≤ k < prefix_of_string p` starts with `p`. -/
theorem range_exact_when_bound_is_last (p k e : List Nat)
    (hp : allAscii p = true) (hk : allAscii k = true)
    (hshape : (∀ x ∈ p, x = 127) ∨ ∃ u c, c < 127 ∧ p = u ++ [c])
    (he : prefix_of_string p = Except.ok e)
    (h1 : lexLe p k = true) (h2 : lexLt k e = true) :
    startsWith p k = true := by
  rcases hshape with hall | ⟨u, c, hc, rfl⟩
  · have hrep : p = List.replicate p.length 127 := List.eq_replicate_of_mem hall
    have hany : ¬ (p.any (fun x => x != 127) = true) := by
      intro hcon
      rw [List.any_eq_true] at hcon
      obtain ⟨x, hx, hxne⟩ := hcon
      exact bne_iff_ne.mp hxne (hall x hx)
    have hE : e = p ++ [127] := by
      rcases prefix_ok_cases p e hp he with ⟨u, c, m, hc, hdec, _⟩ | ⟨_, hEe⟩
      · exfalso
        exact hany (List.any_eq_true.mpr
          ⟨c, by rw [hdec]; exact List.mem_append_right u (List.mem_cons_self c _),
            bne_iff_ne.mpr hc⟩)
      · exact hEe
    rw [hE, hrep] at h2
    rw [hrep] at h1 ⊢
    rw [← List.replicate_succ' p.length 127] at h2
    exact all127_range p.length k hk h1 h2
  · have hpc : c ≠ 127 := Nat.ne_of_lt hc
    have hE : e = u ++ [c + 1] := by
      rw [prefix_of_string_spec_of_ascii _ hp, spec_concat_last u c hpc] at he
      injection he with hEe
      exact hEe.symm
    subst hE
    exact last_inc_range u c k h1 h2

/-- Witness for C2 at the prefix `[97]` and the key `[97, 5]`. -/
theorem range_exact_witness : startsWith [97] [97, 5] = true :=
  range_exact_when_bound_is_last [97] [97, 5] [98] (by decide) (by decide)
    (Or.inr ⟨[], 97, by decide, rfl⟩) (by decide) (by decide) (by decide)

/-- C2 counterexample: for the prefix `[0, 127]` the key `[1]` lies inside
the range `[[0, 127], [1, 127])` but does not start with the prefix. -/
theorem range_inner_max_counterexample :
    prefix_of_string [0, 127] = Except.ok [1, 127] ∧
      lexLe [0, 127] [1] = true ∧ lexLt [1] [1, 127] = true ∧
      startsWith [0, 127] [1] = false := by decide

/-- C3: on every all-ASCII input, `prefix_of_string` returns exactly the
spec's reference result: the rightmost non-127 character incremented in place,
or the input with one 127 appended when no such character exists. -/
theorem prefix_of_string_matches_reference (s : List Nat) (h : allAscii s = true) :
    prefix_of_string s = Except.ok (spec_prefix_of_string s) :=
  prefix_of_string_spec_of_ascii s h

/-- Witness for C3 at the input `[96, 97, 127]`. -/
theorem prefix_of_string_matches_reference_witness :
    prefix_of_string [96, 97, 127] = Except.ok (spec_prefix_of_string [96, 97, 127]) :=
  prefix_of_string_matches_reference [96, 97, 127] (by decide)

/-- C4 (amended): for a non-empty ASCII prefix whose last character is below
127, `prefix_of_string` returns a key strictly greater than every key starting
with the prefix, and no lexicographically smaller ASCII key is greater than
all keys starting with the prefix. -/
theorem least_strict_upper_bound (u : List Nat) (c : Nat) (e : List Nat)
    (hu : allAscii u = true) (hc : c < 127)
    (he : prefix_of_string (u ++ [c]) = Except.ok e) :
    (∀ t, lexLt ((u ++ [c]) ++ t) e = true) ∧
      (∀ b, allAscii b = true → lexLt b e = true →
        ∃ k, startsWith (u ++ [c]) k = true ∧ lexLt k b = false) := by
  have hp : allAscii (u ++ [c]) = true := by
    rw [allAscii_append_iff]
    refine ⟨hu, ?_⟩
    simp [allAscii, isAsciiChar, Nat.le_of_lt hc]
  have hE : e = u ++ [c + 1] := by
    rw [prefix_of_string_spec_of_ascii _ hp, spec_concat_last u c (Nat.ne_of_lt hc)] at he
    injection he with hEe
    exact hEe.symm
  subst hE
  constructor
  · intro t
    simp only [List.append_assoc, List.cons_append, List.nil_append]
    exact lexLt_append_cons u c (c + 1) t [] (Nat.lt_succ_self c)
  · intro b hb hlt
    by_cases hle : lexLe (u ++ [c]) b = true
    · exact ⟨b, last_inc_range u c b hle hlt, lexLt_irrefl b⟩
    · have hle' : lexLe (u ++ [c]) b = false := by
        cases hval : lexLe (u ++ [c]) b
        · rfl
        · exact absurd hval hle
      have hbp := lexLt_of_not_lexLe (u ++ [c]) b hle'
      exact ⟨u ++ [c], startsWith_refl (u ++ [c]), lexLt_asymm b (u ++ [c]) hbp⟩

/-- Witness for C4 at the prefix `[0]`, whose bound is `[1]`. -/
theorem least_strict_upper_bound_witness :
    (∀ t, lexLt (([] ++ [0]) ++ t) [1] = true) ∧
      (∀ b, allAscii b = true → lexLt b [1] = true →
        ∃ k, startsWith ([] ++ [0]) k = true ∧ lexLt k b = false) :=
  least_strict_upper_bound [] 0 [1] (by decide) (by decide) (by decide)

/-- C4 counterexample: for the empty prefix the result `[127]` starts with
the prefix and is not strictly greater than itself, so it is not an upper
bound of all keys sharing the prefix. -/
theorem least_upper_bound_counterexample :
    prefix_of_string [] = Except.ok [127] ∧ startsWith [] [127] = true ∧
      lexLt [127] [127] = false := by decide

/-- C5: `prefix_of_string` fails exactly on inputs holding a character above
127, it then reports `OnlySupportAsciiChars` naming such a character, and that
is its only failure mode: on all-ASCII input it returns a result. -/
theorem prefix_of_string_error_characterization (s : List Nat) :
    ((allAscii s = true → ∃ r, prefix_of_string s = Except.ok r) ∧
      (allAscii s = false →
        ∃ c, c ∈ s ∧ 127 < c ∧
          prefix_of_string s = Except.error (ErrorCode.OnlySupportAsciiChars c)) ∧
      (∀ e, prefix_of_string s = Except.error e →
        ∃ c, c ∈ s ∧ 127 < c ∧ e = ErrorCode.OnlySupportAsciiChars c)) := by
  refine ⟨ok_of_allAscii s, ?_, ?_⟩
  · intro hfalse
    have hex : ∃ x ∈ s, (! isAsciiChar x) = true := by
      by_contra hcon
      push_neg at hcon
      have : allAscii s = true := by
        simp only [allAscii, List.all_eq_true]
        intro x hx
        have := hcon x hx
        simp only [Bool.not_eq_true'] at this
        cases hval : isAsciiChar x
        · exact absurd (by rw [hval]; rfl) this
        · rfl
      rw [this] at hfalse
      exact absurd hfalse (by simp)
    obtain ⟨c0, hfind⟩ := Option.isSome_iff_exists.mp (List.find?_isSome.mpr hex)
    have hc0 : 127 < c0 := by
      have := List.find?_some hfind
      simp only [isAsciiChar, Bool.not_eq_true', decide_eq_false_iff_not, Nat.not_le] at this
      exact this
    refine ⟨c0, List.mem_of_find?_eq_some hfind, hc0, ?_⟩
    unfold prefix_of_string
    rw [hfind]
  · intro e he
    unfold prefix_of_string at he
    cases hfind : s.find? (fun c => ! isAsciiChar c) with
    | none =>
      rw [hfind] at he
      cases hscan : scanBack s s.length with
      | none => rw [hscan] at he; cases he
      | some r => rw [hscan] at he; cases he
    | some c0 =>
      rw [hfind] at he
      injection he with hE
      have hc0 : 127 < c0 := by
        have := List.find?_some hfind
        simp only [isAsciiChar, Bool.not_eq_true', decide_eq_false_iff_not, Nat.not_le] at this
        exact this
      exact ⟨c0, List.mem_of_find?_eq_some hfind, hc0, hE.symm⟩

/-- C6: the six worked cases of the spec, exactly: `"a"` to `"b"`, `"1"` to
`"2"`, `[96, 97, 127]` to `[96, 98, 127]`, `[127]` to `[127, 127]`, the four-127
string lengthened by one 127, and the empty string to `[127]`. -/
theorem prefix_of_string_worked_cases :
    prefix_of_string [97] = Except.ok [98] ∧
      prefix_of_string [49] = Except.ok [50] ∧
      prefix_of_string [96, 97, 127] = Except.ok [96, 98, 127] ∧
      prefix_of_string [127] = Except.ok [127, 127] ∧
      prefix_of_string [127, 127, 127, 127] = Except.ok [127, 127, 127, 127, 127] ∧
      prefix_of_string [] = Except.ok [127] := by decide

/-- C8: `get_start_and_end_of_prefix p` is exactly the pair of `p` and
`prefix_of_string p` when the latter succeeds, and fails with the identical
error when it fails. -/
theorem get_start_and_end_round_trip (p : List Nat) :
    get_start_and_end_of_prefix p = Except.map (fun e => (p, e)) (prefix_of_string p) := by
  unfold get_start_and_end_of_prefix
  cases prefix_of_string p <;> rfl

/-- C9: on every all-ASCII input `p` the successful result of
`prefix_of_string` is strictly greater than `p`, so the half-open range is
non-empty and contains `p`. -/
theorem prefix_of_string_gt_self (p e : List Nat) (hp : allAscii p = true)
    (he : prefix_of_string p = Except.ok e) : lexLt p e = true := by
  rcases prefix_ok_cases p e hp he with ⟨u, c, m, hc, rfl, rfl⟩ | ⟨_, rfl⟩
  · exact lexLt_append_cons u c (c + 1) _ _ (Nat.lt_succ_self c)
  · exact lexLt_self_append p [127] (by simp)

/-- Witness for C9 at the input `[97]`. -/
theorem prefix_of_string_gt_self_witness : lexLt [97] [98] = true :=
  prefix_of_string_gt_self [97] [98] (by decide) (by decide)

/-- C10: on every all-ASCII input the successful result of
`prefix_of_string` is again all-ASCII, so `prefix_of_string` applied to its
own output never fails. -/
theorem prefix_of_string_ascii_closed (p e : List Nat) (hp : allAscii p = true)
    (he : prefix_of_string p = Except.ok e) :
    allAscii e = true ∧ ∃ r, prefix_of_string e = Except.ok r := by
  have hE : allAscii e = true := by
    rcases prefix_ok_cases p e hp he with ⟨u, c, m, hc, hdec, rfl⟩ | ⟨_, rfl⟩
    · subst hdec
      rw [allAscii_append_iff] at hp ⊢
      obtain ⟨hu, hrest⟩ := hp
      refine ⟨hu, ?_⟩
      simp only [allAscii, List.all_eq_true] at hrest ⊢
      intro x hx
      rcases List.mem_cons.mp hx with rfl | hxr
      · have hc127 : c ≤ 127 := by
          have := hrest c (List.mem_cons_self c _)
          simpa [isAsciiChar] using this
        have hlt : c < 127 := Nat.lt_of_le_of_ne hc127 hc
        simp only [isAsciiChar, decide_eq_true_eq]
        omega
      · exact hrest x (List.mem_cons_of_mem c hxr)
    · rw [allAscii_append_iff]
      exact ⟨hp, by decide⟩
  exact ⟨hE, ok_of_allAscii e hE⟩

/-- Witness for C10 at the input `[96, 97, 127]`. -/
theorem prefix_of_string_ascii_closed_witness :
    allAscii [96, 98, 127] = true ∧ ∃ r, prefix_of_string [96, 98, 127] = Except.ok r :=
  prefix_of_string_ascii_closed [96, 97, 127] [96, 98, 127] (by decide) (by decide)

/-- C7: delegation transparency. For any conforming backend `B`, any wrapper
dereferencing to it through `d`, and any second wrapper through `d2`, each of
the five KVApi operations invoked on the wrapper yields a result or error
identical to invoking it directly on the backend at the dereferenced receiver,
with the same error type; the `asKVApi` capability projection changes nothing,
at any indirection depth. -/
theorem delegation_transparency
    {σ τ υ ε Req Rep GetRep MGetRep ListRep Txn TxnRep : Type}
    (d : τ → σ) (d2 : υ → τ)
    (B : KVApi σ ε Req Rep GetRep MGetRep ListRep Txn TxnRep)
    (t : τ) (w : υ) (act : Req) (key : List Nat) (keys : List (List Nat))
    (p : List Nat) (txn : Txn) :
    (derefKVApi d B).upsert_kv t act = B.upsert_kv (d t) act ∧
      (derefKVApi d B).get_kv t key = B.get_kv (d t) key ∧
      (derefKVApi d B).mget_kv t keys = B.mget_kv (d t) keys ∧
      (derefKVApi d B).prefix_list_kv t p = B.prefix_list_kv (d t) p ∧
      (derefKVApi d B).transaction t txn = B.transaction (d t) txn ∧
      (derefKVApi d2 (derefKVApi d B)).upsert_kv w act = B.upsert_kv (d (d2 w)) act ∧
      (derefKVApi d2 (derefKVApi d B)).get_kv w key = B.get_kv (d (d2 w)) key ∧
      (derefKVApi d2 (derefKVApi d B)).mget_kv w keys = B.mget_kv (d (d2 w)) keys ∧
      (derefKVApi d2 (derefKVApi d B)).prefix_list_kv w p = B.prefix_list_kv (d (d2 w)) p ∧
      (derefKVApi d2 (derefKVApi d B)).transaction w txn = B.transaction (d (d2 w)) txn ∧
      asKVApi B = B ∧
      (asKVApi (derefKVApi d B)).get_kv t key = B.get_kv (d t) key :=
  ⟨rfl, rfl, rfl, rfl, rfl, rfl, rfl, rfl, rfl, rfl, rfl, rfl⟩

end KvApi
